import Mathlib

/- Shallow embedding of `src/loglogbeta.rs` (crate `loglogbeta`), a LogLog-Beta
cardinality estimator.  Floating-point (`f64`) arithmetic of the source is
modelled by exact arithmetic: decimal literals become the corresponding
rationals, and the `f64` transcendental `log2` becomes `Real.logb 2`.
Fixed-width integer shifts keep their Rust semantics: the `i32`
expression `1 << x` (in `inverse_sum` and `alpha`) is `shlI32`, which
wraps to `-2^31` at `x = 31` and is a shift-overflow abort from
`x = 32`; the 64-bit `1 << p` of `new` is `shlU64`/`newChecked`,
aborting from `p = 64`, while `new` itself writes the shift's exact
value `2^p` and theorems relying on that carry the matching bound on
`p`.  The 64-bit digest produced by the external Digest Source (SipHash
in the source) is modelled as the natural number `x < 2^64` handed to
`insert`: the Digest Source is an external collaborator whose output
`h.finish()` is the only part of it the counter ever reads.  Aborts
(`panic!` in `rho`, shift overflow, out-of-bounds indexing) are
modelled by `Option`: `none` is an aborted execution. -/

namespace LLB

/-- The `LogLogBeta<E>` struct: `alpha`, `p`, `msize` and the register
vector `m`.  The `PhantomData` marker carries no data and is dropped. -/
structure LogLogBeta where
  alpha : ℚ
  p : ℕ
  msize : ℕ
  m : List ℕ
deriving Repr, DecidableEq

/-- Source `fn alpha(p: usize) -> f64`: the bias-correction constant.
The default branch divides by `(1 << (p)) as f64`, an `i32` shift whose
value is `2^p` exactly for `p ≤ 30` (`shlI32_eq_pow` below; at `p = 31`
it is `-2^31` and from `p = 32` the shift overflows), so the `2^p`
written here is faithful on `p ≤ 30` and theorems about this branch
carry that bound. -/
def alpha (p : ℕ) : ℚ :=
  if p = 4 then 0.674
  else if p = 5 then 0.697
  else if p = 6 then 0.709
  else 0.7213 / (1 + 1.078 / (2 ^ p : ℚ))

/-- The Rust expression `1i32 << s` (the literal `1` in `inverse_sum`
and `alpha` is typed `i32`): the wrapped bit-pattern value for `s < 32`
(`2^s` for `s ≤ 30`, `-2^31` for `s = 31`) and a shift-overflow abort
(`none`) for `s ≥ 32`. -/
def shlI32 (s : ℕ) : Option ℤ :=
  if s < 32 then some ((2 ^ s + 2 ^ 31) % 2 ^ 32 - 2 ^ 31) else none

/-- Any rational is at most some power of two (used to compute the
ceiling of `log2` as a least such exponent). -/
theorem exists_two_pow_ge (v : ℚ) : ∃ n : ℕ, v ≤ 2 ^ n :=
  (pow_unbounded_of_one_lt v one_lt_two).imp fun _ h => le_of_lt h

/-- The precision computed in `new`:
`(1.04 / error).powi(2).log2().ceil() as usize`.  For a positive argument
the ceiling-then-saturating-cast pipeline yields the least natural `n`
with `(1.04/error)^2 ≤ 2^n` (negative ceilings saturate to `0`, matching
`Nat.find` returning `0`); `pOf_eq_ceil_logb` below proves the agreement
with the closed form. -/
def pOf (error : ℚ) : ℕ :=
  Nat.find (exists_two_pow_ge ((1.04 / error) ^ 2))

/-- Source `fn new(error: f64) -> LogLogBeta<E>`: note the absence of
any error channel in the return type, mirroring the source signature.
The two `1 << p` shifts are written with their exact value `2^p` here;
`newChecked` below adds their 64-bit overflow behavior and agrees with
`new` whenever `p ≤ 63`. -/
def new (error : ℚ) : LogLogBeta :=
  let p := pOf error
  { alpha := alpha p
    p := p
    msize := 2 ^ p
    m := List.replicate (2 ^ p) 0 }

/-- Source `w.leading_zeros()` for the `u64` value `w`, as the signed integer the
source casts it to. -/
def leadingZeros (w : ℕ) : ℤ := 64 - Nat.size w

/-- Source `fn rho(w: u64, max_width: isize) -> u64`.  The source `panic!`s when
the computed value is not positive; that abort is `none`. -/
def rho (w : ℕ) (maxWidth : ℤ) : Option ℕ :=
  let r : ℤ := maxWidth - (64 - leadingZeros w) + 1
  if r ≤ 0 then none else some r.toNat

/-- Source `fn insert(&mut self, e: E)`, taken at the digest level: `x` is the
64-bit digest `h.finish()` of the element.  `none` is an aborted run
(the `panic!` inside `rho`, or an out-of-bounds register index). -/
def insert (c : LogLogBeta) (x : ℕ) : Option LogLogBeta :=
  let w := x >>> c.p
  let j := x &&& (c.msize - 1)
  (rho w (64 - (c.p : ℤ))).bind fun r =>
    if j < c.m.length then
      some { c with m := c.m.set j (max (c.m.getD j 0) r) }
    else none

/-- The count `z` of zero registers in `estimate`:
`self.m.iter().filter(|&i| *i == 0).count()`. -/
def zCount (c : LogLogBeta) : ℕ := (c.m.filter (fun r => r == 0)).length

/-- Source `fn inverse_sum(&self) -> f64`:
`self.m.iter().fold(0.0, |acc, &x| acc + (1.0 / (1 << x) as f64))`.
The literal `1` is an `i32` (`shlI32`), so the term for a register `x`
is `2^-x` only for `x ≤ 30`; a register of 31 contributes the negative
term `1/(-2^31)`, and a register of 32 or more overflows the shift
(`none`, the abort). -/
def inverseSum (c : LogLogBeta) : Option ℚ :=
  c.m.foldlM (fun acc x => (shlI32 x).map fun (d : ℤ) => acc + 1 / (d : ℚ)) 0

/-- Source `fn beta(z: usize) -> f64`: the degree-7 bias polynomial in
`log2(z+1)`. -/
noncomputable def beta (z : ℕ) : ℝ :=
  let zr : ℝ := z
  let zl : ℝ := Real.logb 2 (zr + 1)
  (-0.370393911 * zr
    + 0.070471823 * zl
    + 0.17393686 * zl ^ 2
    + 0.16339839 * zl ^ 3
    - 0.09237745 * zl ^ 4
    + 0.03738027 * zl ^ 5
    - 0.005384159 * zl ^ 6
    + 0.00042419 * zl ^ 7)

/-- Source `fn estimate(&self) -> f64`: `none` exactly when
`inverse_sum` aborts. -/
noncomputable def estimate (c : LogLogBeta) : Option ℝ :=
  let z := zCount c
  let ms : ℝ := c.msize
  (inverseSum c).map fun (s : ℚ) =>
    (c.alpha : ℝ) * ms * (ms - (z : ℝ)) / (beta z + (s : ℝ))

/-- Source `fn merge(&self, b: LogLogBeta<E>) -> LogLogBeta<E>`: the source
returns its argument `b` unchanged (the body is the single expression
`b`, under a `TODO` comment). -/
def merge (a b : LogLogBeta) : LogLogBeta := b

/-- Folding `insert` over a list of digests; `none` as soon as any
insertion aborts. -/
def insertAll (c : LogLogBeta) (xs : List ℕ) : Option LogLogBeta :=
  xs.foldlM insert c

/-- States reachable from a freshly constructed counter (target error in
`(0,1)`) by a finite sequence of insertions of 64-bit digests. -/
def Reachable (c : LogLogBeta) : Prop :=
  ∃ (e : ℚ) (xs : List ℕ), 0 < e ∧ e < 1 ∧ (∀ x ∈ xs, x < 2 ^ 64) ∧
    insertAll (new e) xs = some c

/-- Modelled from the spec (§4.4): the register combination merge is
required to perform, the element-wise maximum of the two register
arrays. -/
def specMergeRegisters (a b : List ℕ) : List ℕ := List.zipWith max a b

/-- Modelled from the spec (§4.1): the bias constant claimed for
precisions other than 4, 5, 6, with the spec's literal `1.079`. -/
def specAlphaOther (p : ℕ) : ℚ := 0.7213 / (1 + 1.079 / (2 ^ p : ℚ))

/-- Modelled from the spec (§4.3): `inverseSum` as the spec words it,
the sum over all registers of `2^-register_value`. -/
def specInverseSum (m : List ℕ) : ℚ := (m.map fun r => (1 : ℚ) / 2 ^ r).sum

/-- Reading a register through `getD` after writing register `j`. -/
theorem getD_set_self (l : List ℕ) (j v : ℕ) (h : j < l.length) :
    (l.set j v).getD j 0 = v := by
  simp [List.getD_eq_getElem?_getD, List.getElem?_set_self', List.getElem?_eq_getElem, h]

/-- Registers other than the written one are unchanged. -/
theorem getD_set_ne (l : List ℕ) (i j v : ℕ) (h : i ≠ j) :
    (l.set j v).getD i 0 = l.getD i 0 := by
  simp [List.getD_eq_getElem?_getD, List.getElem?_set_ne (Ne.symm h)]

/-- The quotient `x >>> p` of a 64-bit digest fits in `64 - p` bits. -/
theorem shiftRight_lt_two_pow {x p : ℕ} (hx : x < 2 ^ 64) (hp : p ≤ 64) :
    x >>> p < 2 ^ (64 - p) := by
  rw [Nat.shiftRight_eq_div_pow]
  apply Nat.div_lt_of_lt_mul
  calc x < 2 ^ 64 := hx
    _ = 2 ^ p * 2 ^ (64 - p) := by
        rw [← pow_add]
        congr 1
        omega

/-- On a 64-bit digest with precision at most 63, `rho` never takes the
`panic!` branch, and its value is `64 - p - size (x >>> p) + 1`. -/
theorem rho_of_digest {x p : ℕ} (hx : x < 2 ^ 64) (hp : p ≤ 63) :
    rho (x >>> p) (64 - (p : ℤ)) =
      some ((64 - (p : ℤ)) - Nat.size (x >>> p) + 1).toNat := by
  have hw : x >>> p < 2 ^ (64 - p) := shiftRight_lt_two_pow hx (by omega)
  have hsz : Nat.size (x >>> p) ≤ 64 - p := Nat.size_le.mpr hw
  have hszZ : (Nat.size (x >>> p) : ℤ) ≤ 64 - (p : ℤ) := by
    have := Int.ofNat_le.mpr hsz
    push_cast at this ⊢
    omega
  have hsz64 : (Nat.size (x >>> p) : ℤ) ≤ 64 := by omega
  unfold rho leadingZeros
  have harg : (64 : ℤ) - (p : ℤ) - (64 - (64 - (Nat.size (x >>> p) : ℤ))) + 1 =
      (64 - (p : ℤ)) - Nat.size (x >>> p) + 1 := by ring
  rw [if_neg]
  · exact congrArg some (congrArg Int.toNat harg)
  · omega

/-- The bucket index is the low `p` bits of the digest. -/
theorem bucket_eq_mod (x p : ℕ) : x &&& (2 ^ p - 1) = x % 2 ^ p :=
  Nat.and_pow_two_sub_one_eq_mod x p

/-- Full characterization of a (non-aborting) insertion on a counter
whose fields satisfy the construction invariant. -/
theorem insert_eq_some {c : LogLogBeta} {x : ℕ}
    (hm : c.msize = 2 ^ c.p) (hl : c.m.length = 2 ^ c.p)
    (hp : c.p ≤ 63) (hx : x < 2 ^ 64) :
    LLB.insert c x =
      some { c with
        m := c.m.set (x % 2 ^ c.p)
          (max (c.m.getD (x % 2 ^ c.p) 0)
            ((64 - (c.p : ℤ)) - Nat.size (x >>> c.p) + 1).toNat) } := by
  simp only [LLB.insert]
  rw [hm, bucket_eq_mod, rho_of_digest hx hp]
  have hj : x % 2 ^ c.p < c.m.length := by
    rw [hl]
    exact Nat.mod_lt x (Nat.pos_pow_of_pos c.p (by omega))
  simp [hj]

/-- An insertion, whenever it does not abort, preserves every field but
the register vector, preserves the register count, and rewrites a single
register to the max of its old value and some statistic. -/
theorem insert_some_shape {c c' : LogLogBeta} {x : ℕ}
    (h : LLB.insert c x = some c') :
    c'.alpha = c.alpha ∧ c'.p = c.p ∧ c'.msize = c.msize ∧
      c'.m.length = c.m.length ∧
      ∃ j r, j < c.m.length ∧ c'.m = c.m.set j (max (c.m.getD j 0) r) := by
  simp only [LLB.insert] at h
  rcases hr : rho (x >>> c.p) (64 - (c.p : ℤ)) with _ | r
  · rw [hr] at h
    simp at h
  · rw [hr] at h
    simp only [Option.some_bind] at h
    by_cases hj : x &&& (c.msize - 1) < c.m.length
    · rw [if_pos hj] at h
      obtain rfl := Option.some_injective _ h.symm
      refine ⟨rfl, rfl, rfl, by simp, x &&& (c.msize - 1), r, hj, rfl⟩
    · rw [if_neg hj] at h
      exact absurd h (by simp)

/-- Inversion for a successful insertion, keeping the `rho` origin of the
written statistic. -/
theorem insert_some_inv {c c' : LogLogBeta} {x : ℕ}
    (h : LLB.insert c x = some c') :
    ∃ r, rho (x >>> c.p) (64 - (c.p : ℤ)) = some r ∧
      x &&& (c.msize - 1) < c.m.length ∧
      c' = { c with
        m := c.m.set (x &&& (c.msize - 1))
          (max (c.m.getD (x &&& (c.msize - 1)) 0) r) } := by
  simp only [LLB.insert] at h
  rcases hr : rho (x >>> c.p) (64 - (c.p : ℤ)) with _ | r
  · rw [hr] at h
    simp at h
  · rw [hr] at h
    simp only [Option.some_bind] at h
    by_cases hj : x &&& (c.msize - 1) < c.m.length
    · rw [if_pos hj] at h
      exact ⟨r, rfl, hj, (Option.some_injective _ h).symm⟩
    · rw [if_neg hj] at h
      exact absurd h (by simp)

/-- Whatever `rho` returns is positive and equals
`maxWidth - size w + 1`. -/
theorem rho_some_bound {w : ℕ} {mw : ℤ} {r : ℕ} (h : rho w mw = some r) :
    1 ≤ r ∧ (r : ℤ) = mw - Nat.size w + 1 := by
  simp only [rho, leadingZeros] at h
  by_cases hc : mw - (64 - (64 - (Nat.size w : ℤ))) + 1 ≤ 0
  · rw [if_pos hc] at h
    exact absurd h (by simp)
  · rw [if_neg hc] at h
    obtain rfl := Option.some_injective _ h.symm
    constructor
    · omega
    · omega

/-- A successful insertion never shrinks any register. -/
theorem insert_mono {c c' : LogLogBeta} {x : ℕ}
    (h : LLB.insert c x = some c') :
    ∀ i, c.m.getD i 0 ≤ c'.m.getD i 0 := by
  obtain ⟨r, _, hj, rfl⟩ := insert_some_inv h
  intro i
  by_cases hij : i = x &&& (c.msize - 1)
  · subst hij
    rw [getD_set_self _ _ _ hj]
    exact le_max_left _ _
  · rw [getD_set_ne _ _ _ _ hij]

/-- A successful insertion keeps every register within
`[0, 64 - p + 1]`. -/
theorem insert_range_step {c c' : LogLogBeta} {x : ℕ}
    (h : LLB.insert c x = some c')
    (hc : ∀ i, c.m.getD i 0 ≤ 64 - c.p + 1) :
    ∀ i, c'.m.getD i 0 ≤ 64 - c'.p + 1 := by
  obtain ⟨r, hrho, hj, rfl⟩ := insert_some_inv h
  obtain ⟨hr1, hrv⟩ := rho_some_bound hrho
  have hszn : (0 : ℤ) ≤ (Nat.size (x >>> c.p) : ℤ) := Int.ofNat_nonneg _
  have hrle : r ≤ 64 - c.p + 1 := by omega
  intro i
  by_cases hij : i = x &&& (c.msize - 1)
  · subst hij
    rw [getD_set_self _ _ _ hj]
    exact max_le (hc _) hrle
  · rw [getD_set_ne _ _ _ _ hij]
    exact hc i

/-- Inserting nothing changes nothing. -/
theorem insertAll_nil (c : LogLogBeta) : insertAll c [] = some c := rfl

/-- Unfolding one insertion off the front of a digest list. -/
theorem insertAll_cons (c : LogLogBeta) (x : ℕ) (xs : List ℕ) :
    insertAll c (x :: xs) =
      (LLB.insert c x).bind fun c1 => insertAll c1 xs := by
  simp [insertAll, List.foldlM_cons]

/-- Sequences of insertions preserve `alpha`, `p`, `msize` and the
register count. -/
theorem insertAll_some_shape {xs : List ℕ} {c c' : LogLogBeta}
    (h : insertAll c xs = some c') :
    c'.alpha = c.alpha ∧ c'.p = c.p ∧ c'.msize = c.msize ∧
      c'.m.length = c.m.length := by
  induction xs generalizing c with
  | nil =>
    rw [insertAll_nil] at h
    obtain rfl := Option.some_injective _ h.symm
    exact ⟨rfl, rfl, rfl, rfl⟩
  | cons x xs ih =>
    rw [insertAll_cons] at h
    rcases hstep : LLB.insert c x with _ | c1
    · rw [hstep] at h
      exact absurd h (by simp)
    · rw [hstep, Option.some_bind] at h
      obtain ⟨ha, hp, hm, hl⟩ := ih h
      obtain ⟨ha', hp', hm', hl', _⟩ := insert_some_shape hstep
      exact ⟨ha.trans ha', hp.trans hp', hm.trans hm', hl.trans hl'⟩

/-- Sequences of insertions keep every register within
`[0, 64 - p + 1]`. -/
theorem insertAll_range {xs : List ℕ} {c c' : LogLogBeta}
    (h : insertAll c xs = some c')
    (hc : ∀ i, c.m.getD i 0 ≤ 64 - c.p + 1) :
    ∀ i, c'.m.getD i 0 ≤ 64 - c'.p + 1 := by
  induction xs generalizing c with
  | nil =>
    rw [insertAll_nil] at h
    obtain rfl := Option.some_injective _ h.symm
    exact hc
  | cons x xs ih =>
    rw [insertAll_cons] at h
    rcases hstep : LLB.insert c x with _ | c1
    · rw [hstep] at h
      exact absurd h (by simp)
    · rw [hstep, Option.some_bind] at h
      exact ih h (insert_range_step hstep hc)

/-- A fresh counter has every register at zero. -/
theorem new_register (e : ℚ) (i : ℕ) : (new e).m.getD i 0 = 0 := by
  simp [new, List.getD_eq_getElem?_getD, List.getElem?_replicate]
  split <;> rfl

/-- The bias constant is positive for every precision. -/
theorem alpha_pos (p : ℕ) : 0 < alpha p := by
  unfold alpha
  split_ifs
  · norm_num
  · norm_num
  · norm_num
  · have h2 : (0 : ℚ) < 2 ^ p := by positivity
    have h3 : (0 : ℚ) < 1.078 / 2 ^ p := by positivity
    have h4 : (0 : ℚ) < 1 + 1.078 / 2 ^ p := by linarith
    exact div_pos (by norm_num) h4

/-- With no zero registers the `beta` correction vanishes. -/
theorem beta_zero : beta 0 = 0 := by
  simp [beta, Real.logb_one]

/-- On shift amounts up to 30 the source's `i32` shift is exactly
`2^s`. -/
theorem shlI32_eq_pow {s : ℕ} (h : s ≤ 30) : shlI32 s = some (2 ^ s) := by
  rw [shlI32, if_pos (by omega)]
  congr 1
  have h1 : (2 : ℤ) ^ s + 2 ^ 31 < 2 ^ 32 := by
    have h2 : (2 : ℤ) ^ s ≤ 2 ^ 30 := pow_le_pow_right₀ (by norm_num) h
    norm_num at h2 ⊢
    omega
  have h2 : (0 : ℤ) ≤ 2 ^ s + 2 ^ 31 := by positivity
  rw [Int.emod_eq_of_lt h2 h1]
  ring

/-- At shift amount 31 the source's `i32` shift wraps to `-2^31`. -/
theorem shlI32_31 : shlI32 31 = some (-(2 ^ 31)) := by norm_num [shlI32]

/-- With all list entries at most 30, the fold of `inverse_sum`
computes the spec's sum of `2^-entry` over any accumulator. -/
theorem foldlM_inv_of_small (l : List ℕ) (a : ℚ) (h : ∀ r ∈ l, r ≤ 30) :
    l.foldlM (fun acc x => (shlI32 x).map fun (d : ℤ) => acc + 1 / (d : ℚ)) a =
      some (a + specInverseSum l) := by
  induction l generalizing a with
  | nil => simp [specInverseSum]
  | cons x l ih =>
    rw [List.foldlM_cons, shlI32_eq_pow (h x (by simp))]
    simp only [Option.map_some', Option.bind_eq_bind, Option.some_bind]
    rw [ih _ (fun r hr => h r (by simp [hr]))]
    congr 1
    simp only [specInverseSum, List.map_cons, List.sum_cons]
    push_cast
    ring

/-- On any counter whose registers are all at most 30, the source's
`inverse_sum` is exactly the spec's sum of `2^-register_value`. -/
theorem inverseSum_eq_spec_of_small {c : LogLogBeta}
    (h : ∀ r ∈ c.m, r ≤ 30) :
    inverseSum c = some (specInverseSum c.m) := by
  rw [inverseSum, foldlM_inv_of_small c.m 0 h, zero_add]

/-- A two-register counter of precision 1 whose first register is 1. -/
def cPair1 : LogLogBeta := { alpha := alpha 1, p := 1, msize := 2, m := [1, 0] }

/-- A two-register counter of precision 1 with all registers zero. -/
def cPair2 : LogLogBeta := { alpha := alpha 1, p := 1, msize := 2, m := [0, 0] }

/-- A four-register counter of precision 2. -/
def cQuad : LogLogBeta := { alpha := alpha 2, p := 2, msize := 4, m := [3, 0, 0, 0] }

/-- A sixteen-register counter of precision 4, freshly zeroed. -/
def c16 : LogLogBeta := { alpha := alpha 4, p := 4, msize := 16, m := List.replicate 16 0 }

/-- C1: the claim says `merge` of two equal-precision counters returns
the element-wise maximum of the register arrays.  The source `merge` is
a stub that returns its second argument unchanged: on the equal-precision
pair `cPair1`, `cPair2` the result is `cPair2`, whose registers `[0, 0]`
differ from the element-wise maximum `[1, 0]` required by the spec. -/
theorem merge_returns_second_argument_not_max :
    cPair1.p = cPair2.p ∧ merge cPair1 cPair2 = cPair2 ∧
      (merge cPair1 cPair2).m ≠ specMergeRegisters cPair1.m cPair2.m := by
  refine ⟨rfl, rfl, ?_⟩
  simp [merge, specMergeRegisters, cPair1, cPair2]

/-- C2: the claim says `merge` of mismatched-precision counters fails
with a `MergeError` and never produces a result.  The source `merge` has
no error channel at all and returns its second argument for every pair of
counters, in particular for the mismatched-precision pair
`cPair1` (p = 1), `cQuad` (p = 2). -/
theorem merge_no_precision_check :
    cPair1.p ≠ cQuad.p ∧ merge cPair1 cQuad = cQuad ∧
      ∀ a b : LogLogBeta, merge a b = b := by
  exact ⟨by decide, rfl, fun a b => rfl⟩

/-- The precision computed by `new` at the invalid error value `-1`. -/
theorem pOf_neg_one : pOf (-1) = 1 := by
  rw [pOf, Nat.find_eq_iff]
  constructor
  · norm_num
  · intro k hk
    interval_cases k
    norm_num

/-- C3: the claim says `create` rejects every error outside `(0, 1)` with
a `ConfigurationError`.  The source `new` has no error channel and no
validation: at the invalid argument `-1` it happily returns a fully
initialized two-register counter of precision 1. -/
theorem new_accepts_invalid_error :
    (new (-1)).p = 1 ∧ (new (-1)).msize = 2 ∧ (new (-1)).m = [0, 0] := by
  refine ⟨?_, ?_, ?_⟩ <;> simp [new, pOf_neg_one]

/-- The precision computed by `new` at `error = 2^-34`: the value
`(1.04 * 2^34)^2` lies in `(2^68, 2^69]`. -/
theorem pOf_tiny : pOf (1 / 2 ^ 34) = 69 := by
  rw [pOf, Nat.find_eq_iff]
  constructor
  · norm_num
  · intro k hk
    have hle : (2 : ℚ) ^ k ≤ 2 ^ 68 := pow_le_pow_right₀ (by norm_num) (by omega)
    have hgt : (2 : ℚ) ^ 68 < (1.04 / (1 / 2 ^ 34)) ^ 2 := by norm_num
    intro hcon
    linarith

/-- C4: the claim says a non-positive rho statistic is reported to the
caller as a recoverable `InternalInvariantError` and that `insert`
never triggers a process-ending abort.  The source instead executes
`panic!("w overflow: ...")` whenever rho is not positive, and no
`InternalInvariantError` exists anywhere in the code.  The condition is
reachable: `new` accepts every error in `(0, 1)` unvalidated, and at
`error = 2^-34` it computes precision 69, so `maxWidth = 64 - 69 < 0`
and every insertion's rho is at most `-4`: every insertion on that
counter aborts (`none` here, the `panic!` in the source). -/
theorem insert_always_aborts_on_tiny_error :
    (0 : ℚ) < 1 / 2 ^ 34 ∧ (1 / 2 ^ 34 : ℚ) < 1 ∧
      ∀ x : ℕ, LLB.insert (new (1 / 2 ^ 34)) x = none := by
  refine ⟨by norm_num, by norm_num, ?_⟩
  intro x
  have hp : (new (1 / 2 ^ 34)).p = 69 := pOf_tiny
  simp only [LLB.insert, hp]
  have hrho : rho (x >>> 69) (64 - ((69 : ℕ) : ℤ)) = none := by
    rw [rho, leadingZeros]
    rw [if_pos]
    have := Int.ofNat_nonneg (Nat.size (x >>> 69))
    omega
  rw [hrho]
  rfl

/-- C5 counterexample: the claim gives the bias constant
`0.7213 / (1 + 1.079 / 2^p)` for precisions other than 4, 5, 6, but the
source uses the numerator `1.078`; at `p = 7` the two differ. -/
theorem alpha_ne_claimed_constant : alpha 7 ≠ specAlphaOther 7 := by
  norm_num [alpha, specAlphaOther]

/-- C5 amended: `alpha` is `0.674`, `0.697`, `0.709` at `p = 4, 5, 6`
and `0.7213 / (1 + 1.078 / 2^p)` (source constant `1.078`, not the
claimed `1.079`) at every other precision up to 30, the range on which
the source's `i32` expression `(1 << (p)) as f64` equals `2^p`
(`shlI32_eq_pow`); at `p = 31` that expression is `-2^31` and from
`p = 32` the shift overflows, so beyond 30 the default branch does not
compute this formula at all. -/
theorem alpha_cases :
    alpha 4 = 0.674 ∧ alpha 5 = 0.697 ∧ alpha 6 = 0.709 ∧
      ∀ p : ℕ, p ≤ 30 → p ≠ 4 → p ≠ 5 → p ≠ 6 →
        alpha p = 0.7213 / (1 + 1.078 / (2 ^ p : ℚ)) := by
  refine ⟨by norm_num [alpha], by norm_num [alpha], by norm_num [alpha], ?_⟩
  intro p _hp h4 h5 h6
  simp [alpha, h4, h5, h6]

/-- Witness for C5 at the concrete precision 7. -/
theorem alpha_cases_witness :
    alpha 7 = 0.7213 / (1 + 1.078 / (2 ^ 7 : ℚ)) :=
  alpha_cases.2.2.2 7 (by norm_num) (by norm_num) (by norm_num) (by norm_num)

/-- C7: on a well-formed counter, inserting a 64-bit digest `x` updates
exactly the register at index `j = x &&& (bucketCount - 1) = x mod 2^p`
to the max of its previous value and
`rho = (64 - p) - (64 - leadingZeros (x >>> p)) + 1`, leaving every other
register and every other field unchanged. -/
theorem insert_bucket_update {c : LogLogBeta} {x : ℕ}
    (hm : c.msize = 2 ^ c.p) (hl : c.m.length = 2 ^ c.p)
    (hp : c.p ≤ 63) (hx : x < 2 ^ 64) :
    ∃ c', LLB.insert c x = some c' ∧
      x &&& (c.msize - 1) = x % 2 ^ c.p ∧
      c'.p = c.p ∧ c'.alpha = c.alpha ∧ c'.msize = c.msize ∧
      c'.m.length = c.m.length ∧
      c'.m.getD (x % 2 ^ c.p) 0 =
        max (c.m.getD (x % 2 ^ c.p) 0)
          ((64 - (c.p : ℤ) - (64 - leadingZeros (x >>> c.p)) + 1).toNat) ∧
      ∀ i, i ≠ x % 2 ^ c.p → c'.m.getD i 0 = c.m.getD i 0 := by
  have hj : x % 2 ^ c.p < c.m.length := by
    rw [hl]
    exact Nat.mod_lt x (by positivity)
  refine ⟨_, insert_eq_some hm hl hp hx, ?_, rfl, rfl, rfl, by simp, ?_, ?_⟩
  · rw [hm]
    exact bucket_eq_mod x c.p
  · rw [getD_set_self _ _ _ hj]
    congr 2
    unfold leadingZeros
    ring
  · intro i hi
    exact getD_set_ne _ _ _ _ hi

/-- Witness for C7 at the concrete counter `c16` and digest 5. -/
theorem insert_bucket_update_witness :
    ∃ c', LLB.insert c16 5 = some c' ∧
      5 &&& (c16.msize - 1) = 5 % 2 ^ c16.p ∧
      c'.p = c16.p ∧ c'.alpha = c16.alpha ∧ c'.msize = c16.msize ∧
      c'.m.length = c16.m.length ∧
      c'.m.getD (5 % 2 ^ c16.p) 0 =
        max (c16.m.getD (5 % 2 ^ c16.p) 0)
          ((64 - (c16.p : ℤ) - (64 - leadingZeros (5 >>> c16.p)) + 1).toNat) ∧
      ∀ i, i ≠ 5 % 2 ^ c16.p → c'.m.getD i 0 = c16.m.getD i 0 :=
  insert_bucket_update (by norm_num [c16]) (by simp [c16])
    (by norm_num [c16]) (by norm_num)

/-- A counter of precision 1 with both registers at 31, as reached from
`create(0.8)` by inserting the digests `2^33` and `2^33 + 1`. -/
def c31 : LogLogBeta := { alpha := alpha 1, p := 1, msize := 2, m := [31, 31] }

/-- The precision computed by `new` at the error four fifths. -/
theorem pOf_fourFifths : pOf (4 / 5) = 1 := by
  rw [pOf, Nat.find_eq_iff]
  constructor
  · norm_num
  · intro k hk
    interval_cases k
    norm_num

/-- The counter constructed at error four fifths. -/
theorem new_fourFifths :
    new (4 / 5) = { alpha := alpha 1, p := 1, msize := 2, m := [0, 0] } := by
  simp [new, pOf_fourFifths]

/-- The remainder bits of the digest `2^33` at precision 1. -/
theorem shift_digest1 : (2 : ℕ) ^ 33 >>> 1 = 2 ^ 32 := by
  rw [Nat.shiftRight_eq_div_pow, Nat.pow_div (by omega) (by omega)]

/-- The remainder bits of the digest `2^33 + 1` at precision 1. -/
theorem shift_digest2 : ((2 : ℕ) ^ 33 + 1) >>> 1 = 2 ^ 32 := by
  rw [Nat.shiftRight_eq_div_pow]
  have h : (2 : ℕ) ^ 33 + 1 = 2 * 2 ^ 32 + 1 := by ring
  rw [h, pow_one, Nat.mul_add_div (by omega)]
  norm_num

/-- Inserting the digest `2^33` (bucket 0, rho 31) into the fresh
two-register counter. -/
theorem insert_digest1 :
    LLB.insert { alpha := alpha 1, p := 1, msize := 2, m := [0, 0] } (2 ^ 33) =
      some { alpha := alpha 1, p := 1, msize := 2, m := [31, 0] } := by
  rw [insert_eq_some (by norm_num) (by norm_num) (by norm_num) (by norm_num)]
  congr 1
  have hmod : (2 : ℕ) ^ 33 % 2 ^ 1 = 0 := by simp [Nat.pow_mod]
  rw [hmod]
  simp only [shift_digest1, Nat.size_pow]
  norm_num
  rfl

/-- Inserting the digest `2^33 + 1` (bucket 1, rho 31) next. -/
theorem insert_digest2 :
    LLB.insert { alpha := alpha 1, p := 1, msize := 2, m := [31, 0] } (2 ^ 33 + 1) =
      some { alpha := alpha 1, p := 1, msize := 2, m := [31, 31] } := by
  rw [insert_eq_some (by norm_num) (by norm_num) (by norm_num) (by norm_num)]
  congr 1
  have hmod : ((2 : ℕ) ^ 33 + 1) % 2 ^ 1 = 1 := by
    rw [pow_one, Nat.add_mod]
    simp [Nat.pow_mod]
  rw [hmod]
  simp only [shift_digest2, Nat.size_pow]
  norm_num
  rfl

/-- The all-31 two-register state is reachable. -/
theorem reach_c31 : Reachable c31 := by
  refine ⟨4 / 5, [2 ^ 33, 2 ^ 33 + 1], by norm_num, by norm_num, ?_, ?_⟩
  · intro x hx
    simp only [List.mem_cons, List.not_mem_nil, or_false, List.mem_singleton] at hx
    rcases hx with rfl | rfl <;> norm_num
  · rw [insertAll_cons, new_fourFifths, insert_digest1, Option.some_bind,
      insertAll_cons, insert_digest2, Option.some_bind, insertAll_nil]
    rfl

/-- The source's `inverse_sum` at the all-31 state: two copies of the
negative term `1/(-2^31)`. -/
theorem inverseSum_c31 : inverseSum c31 = some (-(1 / 2 ^ 30)) := by
  simp only [inverseSum, c31, List.foldlM_cons, List.foldlM_nil, shlI32_31]
  norm_num

/-- No register of the all-31 state is zero. -/
theorem zCount_c31 : zCount c31 = 0 := rfl

/-- The source's estimate at the all-31 state. -/
theorem estimate_c31_eval : estimate c31 = some (-((alpha 1 : ℝ) * 2 ^ 32)) := by
  rw [estimate, inverseSum_c31]
  simp only [zCount_c31, beta_zero, Option.map_some']
  congr 1
  show (c31.alpha : ℝ) * (c31.msize : ℕ) * ((c31.msize : ℕ) - ((0 : ℕ) : ℝ)) /
      (0 + ((-(1 / 2 ^ 30) : ℚ) : ℝ)) = -((alpha 1 : ℝ) * 2 ^ 32)
  have hc : c31.alpha = alpha 1 := rfl
  have hm : (c31.msize : ℕ) = 2 := rfl
  rw [hc, hm]
  push_cast
  field_simp
  ring

/-- C6: the claim describes `inverseSum` as the sum over all registers
of `2^-register_value` and `estimate` as the bias formula over it.  The
source computes each term as `1.0 / (1 << x) as f64` with an `i32`
literal `1`, so a register of 31 - reachable from `create(0.8)` through
the digests `2^33` and `2^33 + 1`, whose rho windows carry 33 leading
zeros - contributes the negative term `1/(-2^31)`.  At the reachable
state `c31` the code's `inverse_sum` is `-2^-30` while the claimed sum
is `+2^-30`, and the code's estimate is `-alpha(1)*2^32`, not the
claimed formula value `+alpha(1)*2^32`. -/
theorem estimate_uses_corrupted_inverse_sum :
    Reachable c31 ∧
      specInverseSum c31.m = 1 / 2 ^ 30 ∧
      inverseSum c31 = some (-(1 / 2 ^ 30)) ∧
      estimate c31 = some (-((alpha 1 : ℝ) * 2 ^ 32)) ∧
      estimate c31 ≠ some ((c31.alpha : ℝ) * (c31.msize : ℝ) *
          ((c31.msize : ℝ) - (zCount c31 : ℝ)) /
        (beta (zCount c31) + ((specInverseSum c31.m : ℚ) : ℝ))) := by
  have hs : specInverseSum c31.m = 1 / 2 ^ 30 := by
    norm_num [specInverseSum, c31]
  have hapos : (0 : ℝ) < ((alpha 1 : ℚ) : ℝ) := by exact_mod_cast alpha_pos 1
  refine ⟨reach_c31, hs, inverseSum_c31, estimate_c31_eval, ?_⟩
  rw [estimate_c31_eval]
  intro hcon
  have h1 := Option.some_injective _ hcon
  have hneg : -(((alpha 1 : ℚ) : ℝ) * 2 ^ 32) < 0 := by nlinarith
  have hposR : 0 < (c31.alpha : ℝ) * (c31.msize : ℝ) *
      ((c31.msize : ℝ) - (zCount c31 : ℝ)) /
      (beta (zCount c31) + ((specInverseSum c31.m : ℚ) : ℝ)) := by
    rw [zCount_c31, beta_zero, hs]
    have hc : (c31.alpha : ℝ) = ((alpha 1 : ℚ) : ℝ) := rfl
    have hm2 : ((c31.msize : ℕ) : ℝ) = 2 := by norm_num [c31]
    rw [hc, hm2]
    apply div_pos
    · push_cast
      nlinarith
    · push_cast
      norm_num
  rw [h1] at hneg
  linarith

/-- Any reachable counter satisfies the construction invariant. -/
theorem reachable_inv {c : LogLogBeta} (h : Reachable c) :
    c.alpha = alpha c.p ∧ c.msize = 2 ^ c.p ∧ c.m.length = 2 ^ c.p := by
  obtain ⟨e, xs, -, -, -, hall⟩ := h
  obtain ⟨ha, hp, hm, hl⟩ := insertAll_some_shape hall
  refine ⟨?_, ?_, ?_⟩
  · rw [ha, hp]
    rfl
  · rw [hm, hp]
    rfl
  · rw [hl, hp]
    simp [new]

/-- C9: the claim says every reachable state's estimate is a
non-negative real.  At the reachable state `c31` (precision 1, both
registers 31) the `i32` shift in `inverse_sum` makes the denominator
negative while the numerator stays positive, and the code's estimate is
`-alpha(1) * 2^32` (about `-3.1e9`). -/
theorem estimate_negative_at_reachable_state :
    Reachable c31 ∧ ∃ v, estimate c31 = some v ∧ v < 0 := by
  refine ⟨reach_c31, -(((alpha 1 : ℚ) : ℝ) * 2 ^ 32), estimate_c31_eval, ?_⟩
  have hapos : (0 : ℝ) < ((alpha 1 : ℚ) : ℝ) := by exact_mod_cast alpha_pos 1
  nlinarith

/-- C10: on every reachable counter every register lies in
`[0, 64 - p + 1]` (the lower bound holds by the register type), and a
further successful insertion never decreases any register. -/
theorem registers_bounded_monotone {c : LogLogBeta} (h : Reachable c) :
    (∀ i, c.m.getD i 0 ≤ 64 - c.p + 1) ∧
      ∀ x c', LLB.insert c x = some c' →
        ∀ i, c.m.getD i 0 ≤ c'.m.getD i 0 := by
  constructor
  · obtain ⟨e, xs, -, -, -, hall⟩ := h
    refine insertAll_range hall ?_
    intro i
    rw [new_register]
    exact Nat.zero_le _
  · intro x c' hstep
    exact insert_mono hstep

/-- Witness for C10 at the freshly constructed counter for error one
half. -/
theorem registers_bounded_monotone_witness :
    (∀ i, (new (1 / 2)).m.getD i 0 ≤ 64 - (new (1 / 2)).p + 1) ∧
      ∀ x c', LLB.insert (new (1 / 2)) x = some c' →
        ∀ i, (new (1 / 2)).m.getD i 0 ≤ c'.m.getD i 0 :=
  registers_bounded_monotone ⟨1 / 2, [], by norm_num, by norm_num, by simp, rfl⟩

end LLB
